import Mathlib

/-!
Verification of the xxid identifier library (package `xxid`, file `xxid.go`).

The binary codec (`encodeBinary` / `decodeBinary`), the accessors
(`SetFlag`, `Flag`, `Short`, `IP`, `IPPortAddr`) and the parsers
(`ParseBinary`, `ParseBase62`, `ParseString`) are embedded from the Go
source.  Byte slices are `List Nat` with every element below 256; Go's
`uint16`/`uint8` fields are `Nat` with explicit bounds; `int64` is `Int`
with explicit wrap-around (`% 2 ^ 64` / `Int.emod`) where Go wraps.

The variable-width base-62 codec and the monotonic time+counter sequencer
belong to files of the repository that are not part of the source tree
snapshot (only their callers and tests are); those two pieces are modelled
from the specification, and are marked as such in their doc comments.
-/

namespace Xxid

/-! ## Generic big-endian digit strings -/

/-- Value of a big-endian digit list in base `b`. -/
def fromDigits (b : Nat) (l : List Nat) : Nat :=
  l.foldl (fun acc d => acc * b + d) 0

/-- Fixed-width big-endian digit list of `n` in base `b`: exactly `w`
digits, most significant first, each digit reduced modulo `b` (matching
byte extraction `n >> shift & 0xFF` in the Go encoder). -/
def toDigits (b : Nat) : Nat → Nat → List Nat
  | 0, _ => []
  | w + 1, n => n / b ^ w % b :: toDigits b w (n % b ^ w)

/-- Strict lexicographic order on byte strings, as Go `bytes.Compare a b < 0`:
elementwise on the common prefix, a strict prefix is smaller. -/
def lexLt : List Nat → List Nat → Bool
  | [], [] => false
  | [], _ :: _ => true
  | _ :: _, [] => false
  | a :: l, c :: m => if a < c then true else if a = c then lexLt l m else false

/-- Well-formed byte string: every element is an actual byte. -/
def WfBytes (l : List Nat) : Prop := ∀ x ∈ l, x < 256

instance : DecidablePred WfBytes := fun l => List.decidableBAll _ l

theorem length_toDigits (b w n : Nat) : (toDigits b w n).length = w := by
  induction w generalizing n with
  | zero => rfl
  | succ w ih => simp [toDigits, ih]

theorem mem_toDigits_lt (b w n : Nat) (hb : 0 < b) :
    ∀ d ∈ toDigits b w n, d < b := by
  induction w generalizing n with
  | zero => simp [toDigits]
  | succ w ih =>
    intro d hd
    simp only [toDigits, List.mem_cons] at hd
    rcases hd with h | h
    · subst h; exact Nat.mod_lt _ hb
    · exact ih _ d h

theorem fromDigits_go (b : Nat) (l : List Nat) (acc : Nat) :
    l.foldl (fun a d => a * b + d) acc = acc * b ^ l.length + fromDigits b l := by
  induction l generalizing acc with
  | nil => simp [fromDigits]
  | cons x l ih =>
    simp only [List.foldl_cons, List.length_cons, fromDigits]
    rw [ih (acc * b + x), ih (0 * b + x)]
    ring

theorem fromDigits_cons (b x : Nat) (l : List Nat) :
    fromDigits b (x :: l) = x * b ^ l.length + fromDigits b l := by
  simpa [fromDigits] using fromDigits_go b l x

theorem fromDigits_append (b : Nat) (l₁ l₂ : List Nat) :
    fromDigits b (l₁ ++ l₂) = fromDigits b l₁ * b ^ l₂.length + fromDigits b l₂ := by
  simpa [fromDigits] using fromDigits_go b l₂ (fromDigits b l₁)

theorem fromDigits_lt (b : Nat) (l : List Nat) (h : ∀ d ∈ l, d < b) :
    fromDigits b l < b ^ l.length := by
  induction l with
  | nil => simp [fromDigits]
  | cons x l ih =>
    rw [fromDigits_cons]
    have hx : x < b := h x (by simp)
    have hl : fromDigits b l < b ^ l.length := ih (fun d hd => h d (by simp [hd]))
    have : x * b ^ l.length + fromDigits b l < (x + 1) * b ^ l.length := by
      nlinarith
    calc x * b ^ l.length + fromDigits b l < (x + 1) * b ^ l.length := this
      _ ≤ b * b ^ l.length := by
        have : x + 1 ≤ b := hx
        exact Nat.mul_le_mul_right _ this
      _ = b ^ (x :: l).length := by rw [List.length_cons, pow_succ]; ring

theorem fromDigits_toDigits (b w n : Nat) :
    fromDigits b (toDigits b w n) = n % b ^ w := by
  induction w generalizing n with
  | zero => simp [toDigits, fromDigits, Nat.mod_one]
  | succ w ih =>
    rw [toDigits, fromDigits_cons, length_toDigits, ih,
      Nat.mod_mod_of_dvd n dvd_rfl, pow_succ, Nat.mod_mul]
    ring

theorem fromDigits_toDigits_of_lt (b w n : Nat) (h : n < b ^ w) :
    fromDigits b (toDigits b w n) = n := by
  rw [fromDigits_toDigits, Nat.mod_eq_of_lt h]

theorem toDigits_fromDigits (b : Nat) (l : List Nat) (h : ∀ d ∈ l, d < b) :
    toDigits b l.length (fromDigits b l) = l := by
  induction l with
  | nil => rfl
  | cons x l ih =>
    have hx : x < b := h x (by simp)
    have hb : 0 < b := Nat.lt_of_le_of_lt (Nat.zero_le x) hx
    have hl : fromDigits b l < b ^ l.length :=
      fromDigits_lt b l (fun d hd => h d (by simp [hd]))
    rw [List.length_cons, toDigits, fromDigits_cons]
    have hrw : x * b ^ l.length + fromDigits b l
        = b ^ l.length * x + fromDigits b l := by ring
    have hdiv : (x * b ^ l.length + fromDigits b l) / b ^ l.length % b = x := by
      rw [hrw, Nat.mul_add_div (pow_pos hb _), Nat.div_eq_of_lt hl, Nat.add_zero]
      exact Nat.mod_eq_of_lt hx
    have hmod : (x * b ^ l.length + fromDigits b l) % b ^ l.length = fromDigits b l := by
      rw [hrw, Nat.mul_add_mod, Nat.mod_eq_of_lt hl]
    rw [hdiv, hmod, ih (fun d hd => h d (by simp [hd]))]

theorem lexLt_iff (b : Nat) (l₁ l₂ : List Nat) (hlen : l₁.length = l₂.length)
    (h₁ : ∀ d ∈ l₁, d < b) (h₂ : ∀ d ∈ l₂, d < b) :
    lexLt l₁ l₂ = true ↔ fromDigits b l₁ < fromDigits b l₂ := by
  induction l₁ generalizing l₂ with
  | nil =>
    cases l₂ with
    | nil => simp [lexLt, fromDigits]
    | cons y m => simp at hlen
  | cons x l ih =>
    cases l₂ with
    | nil => simp at hlen
    | cons y m =>
      simp only [List.length_cons, Nat.succ_inj] at hlen
      rw [fromDigits_cons, fromDigits_cons, ← hlen]
      have hx : x < b := h₁ x (by simp)
      have hy : y < b := h₂ y (by simp)
      have hl : fromDigits b l < b ^ l.length :=
        fromDigits_lt b l (fun d hd => h₁ d (by simp [hd]))
      have hm : fromDigits b m < b ^ l.length := by
        rw [hlen]
        exact fromDigits_lt b m (fun d hd => h₂ d (by simp [hd]))
      simp only [lexLt]
      rcases Nat.lt_trichotomy x y with hxy | hxy | hxy
      · simp only [if_pos hxy, true_iff]
        nlinarith
      · subst hxy
        simp only [lt_irrefl, if_false, if_pos rfl, if_true]
        rw [ih m hlen (fun d hd => h₁ d (by simp [hd])) (fun d hd => h₂ d (by simp [hd]))]
        omega
      · have h1 : ¬ x < y := by omega
        have h2 : ¬ x = y := by omega
        rw [if_neg h1, if_neg h2]
        apply iff_of_false (by simp)
        push_neg
        have hstep : (y + 1) * b ^ l.length ≤ x * b ^ l.length :=
          Nat.mul_le_mul_right _ (by omega)
        linarith

theorem lexLt_irrefl (l : List Nat) : lexLt l l = false := by
  induction l with
  | nil => rfl
  | cons x l ih => simp [lexLt, ih]

/-- Carry-free disjunction: when the low `n` bits of the left operand are
zero, bitwise or is addition. -/
theorem mul_two_pow_lor_eq_add (a d n : Nat) (h : d < 2 ^ n) :
    a * 2 ^ n ||| d = a * 2 ^ n + d := by
  apply Nat.eq_of_testBit_eq
  intro i
  rw [Nat.testBit_lor, Nat.testBit_to_div_mod, Nat.testBit_to_div_mod,
    Nat.testBit_to_div_mod]
  rcases Nat.lt_or_ge i n with hi | hi
  · have h2 : a * 2 ^ n = 2 ^ i * (2 * (a * 2 ^ (n - i - 1))) := by
      have hpow : (2 : Nat) ^ n = 2 ^ (i + 1) * 2 ^ (n - i - 1) := by
        rw [← pow_add]; congr 1; omega
      rw [hpow]; ring
    have hdvd : a * 2 ^ n / 2 ^ i % 2 = 0 := by
      rw [h2, Nat.mul_div_cancel_left _ (Nat.two_pow_pos i)]
      omega
    have hadd : (a * 2 ^ n + d) / 2 ^ i % 2 = d / 2 ^ i % 2 := by
      have h3 : a * 2 ^ n + d = d + 2 ^ i * (2 * (a * 2 ^ (n - i - 1))) := by
        rw [h2]; ring
      rw [h3, Nat.add_mul_div_left _ _ (Nat.two_pow_pos i)]
      omega
    rw [hdvd, hadd]
    simp
  · have h2 : (2 : Nat) ^ i = 2 ^ n * 2 ^ (i - n) := by
      rw [← pow_add]; congr 1; omega
    have hd0 : d / 2 ^ i = 0 := by
      apply Nat.div_eq_of_lt
      calc d < 2 ^ n := h
        _ ≤ 2 ^ i := Nat.pow_le_pow_right (by norm_num) hi
    have hq : (a * 2 ^ n + d) / 2 ^ n = a := by
      have h3 : a * 2 ^ n + d = d + 2 ^ n * a := by ring
      rw [h3, Nat.add_mul_div_left _ _ (Nat.two_pow_pos n), Nat.div_eq_of_lt h]
      omega
    have hq2 : a * 2 ^ n / 2 ^ n = a := Nat.mul_div_cancel _ (Nat.two_pow_pos n)
    have hadd : (a * 2 ^ n + d) / 2 ^ i = a * 2 ^ n / 2 ^ i := by
      rw [h2, ← Nat.div_div_eq_div_mul, ← Nat.div_div_eq_div_mul, hq, hq2]
    rw [hd0, hadd]
    simp

/-! ## The ID data model (xxid.go) -/

/-- The `ID` struct of `xxid.go`.  `timeMsec` is Go `int64`; `pidOrPort`,
`counter` and `flag` are `uint16`; `mIDType` is `uint8`; `machineID` is a
`[16]byte` array, modelled as a list with well-formedness on the side. -/
structure ID where
  timeMsec : Int
  pidOrPort : Nat
  counter : Nat
  flag : Nat
  mIDType : Nat
  machineID : List Nat
deriving DecidableEq, Repr

/-- Well-formedness following the Go field types. -/
def ID.WF (id : ID) : Prop :=
  id.pidOrPort < 2 ^ 16 ∧ id.counter < 2 ^ 16 ∧ id.flag < 2 ^ 16 ∧
    id.mIDType < 2 ^ 8 ∧ id.machineID.length = 16 ∧ WfBytes id.machineID

instance : DecidablePred ID.WF := fun id => by unfold ID.WF; infer_instance

/-- Machine-ID type constants of `xxid.go`. -/
def Random : Nat := 0

def HostID : Nat := 1

def IPv4 : Nat := 2

def IPv6 : Nat := 3

def Specified4 : Nat := 4

def Specified8 : Nat := 5

def Specified16 : Nat := 6

def maxMachineIDType : Nat := Specified16

def minBinEncodedLen : Nat := 16

def maxBinEncodedLen : Nat := 28

def minBase62EncodedLen : Nat := 22

def maxBase62EncodedLen : Nat := 38

def minStringEncodedLen : Nat := 38

def flagMask : Nat := 2 ^ 15

/-- Go array `machineIdLength`, indexed by machine-ID type. -/
def machineIdLength (t : Nat) : Nat := [4, 4, 4, 16, 4, 8, 16].getD t 0

/-- Go array `binEncodedLength`, indexed by machine-ID type. -/
def binEncodedLength (t : Nat) : Nat := [16, 16, 16, 28, 16, 20, 28].getD t 0

/-- Go array `b62EncodedLength`, indexed by machine-ID type. -/
def b62EncodedLength (t : Nat) : Nat := [22, 22, 22, 38, 22, 27, 38].getD t 0

/-- Go array `strEncodedLength`, indexed by machine-ID type. -/
def strEncodedLength (t : Nat) : Nat := [38, 38, 38, 62, 38, 46, 62].getD t 0

/-- Go sparse array `binDecodedLength = [...]int{22: 16, 27: 20, 38: 28}`
(all other entries zero), indexed by a base62 input length that the caller
has already bounded by 38. -/
def binDecodedLength (n : Nat) : Nat :=
  if n = 22 then 16 else if n = 27 then 20 else if n = 38 then 28 else 0

/-- Decode/parse errors of `xxid.go`.  `invalidBase62Character` carries the
offending character, as `errInvalidBase62Character(char)` does. -/
inductive Err
  | incorrectBinaryLength
  | incorrectBase62Length
  | incorrectStringLength
  | invalidStringRepr
  | unknownMachineIDType
  | invalidBase62Character (char : Nat)
deriving DecidableEq, Repr

/-- The `ID.encodeBinary` method of `xxid.go`.  The Go code writes, into a
buffer of `binEncodedLength[mIDType]` bytes: `PutUint64` of
`uint64(timeMsec)<<3 | uint64(mIDType)` followed by `copy(out[:6], out[2:8])`
(that is, the 6-byte big-endian image of the low 48 bits), then the 2-byte
big-endian counter, the first `machineIdLength[mIDType]` machine-ID bytes,
the 2-byte pid-or-port and the 2-byte flag.  Go's `uint64(int64)` conversion
is `Int.emod (2 ^ 64)` and `<<3` wraps modulo `2 ^ 64`. -/
def encodeBinary (id : ID) : List Nat :=
  toDigits 256 6 (((id.timeMsec % 2 ^ 64).toNat <<< 3 % 2 ^ 64 ||| id.mIDType) % 2 ^ 48)
    ++ toDigits 256 2 id.counter
    ++ id.machineID.take (machineIdLength id.mIDType)
    ++ toDigits 256 2 id.pidOrPort
    ++ toDigits 256 2 id.flag

/-- The `decodeBinary` function of `xxid.go`.  `beEnc.Uint64(src[:8]) >> 16`
is the big-endian value of the first 8 bytes shifted by 16, i.e. the 48-bit
timestamp-and-type group; the length and type checks happen in source
order, before the remaining fields are read.  `copy(id.machineID[:], ...)`
of `mIdLen` bytes into a zeroed 16-byte array is the copied prefix padded
with zeros. -/
def decodeBinary (src : List Nat) : Except Err ID :=
  if src.length < minBinEncodedLen then .error .incorrectBinaryLength
  else
    let tmp := fromDigits 256 (src.take 8) >>> 16
    let timeMsec : Int := Int.ofNat (tmp >>> 3)
    let mIDType := tmp &&& 7
    if mIDType > maxMachineIDType then .error .unknownMachineIDType
    else if src.length ≠ binEncodedLength mIDType then .error .incorrectBinaryLength
    else
      let counter := fromDigits 256 ((src.drop 6).take 2)
      let mIdLen := machineIdLength mIDType
      let machineID := (src.drop 8).take mIdLen ++ List.replicate (16 - mIdLen) 0
      let pidOrPort := fromDigits 256 ((src.drop (8 + mIdLen)).take 2)
      let flag := fromDigits 256 ((src.drop (10 + mIdLen)).take 2)
      .ok ⟨timeMsec, pidOrPort, counter, flag, mIDType, machineID⟩

/-- `ID.Binary` of `xxid.go`. -/
def ID.Binary (id : ID) : List Nat := encodeBinary id

/-- `ParseBinary` of `xxid.go`. -/
def ParseBinary (src : List Nat) : Except Err ID := decodeBinary src

/-- `ID.SetFlag` of `xxid.go`: `id.flag = flag | flagMask`. -/
def ID.SetFlag (id : ID) (flag : Nat) : ID := { id with flag := flag ||| flagMask }

/-- `ID.Flag` of `xxid.go`: zero when the marker bit is clear, otherwise
the flag with the marker bit masked off (`flag & ^uint16(flagMask)`, and
`^uint16(1 << 15) = 0x7FFF`). -/
def ID.Flag (id : ID) : Nat :=
  if id.flag &&& flagMask = 0 then 0 else id.flag &&& 0x7FFF

/-- `ID.Short` of `xxid.go`: `id.timeMsec<<16 | int64(id.counter)`.  The Go
`int64` shift wraps modulo `2 ^ 64` in two's complement, which is
`Int.bmod (2 ^ 64)`; the disjunction with a 16-bit value carries no wrap. -/
def ID.Short (id : ID) : Int :=
  Int.lor (Int.bmod (id.timeMsec * 2 ^ 16) (2 ^ 64)) (Int.ofNat id.counter)

/-- `ID.Counter` of `xxid.go`. -/
def ID.Counter (id : ID) : Nat := id.counter

/-- `ID.MachineIDType` of `xxid.go`. -/
def ID.MachineIDType (id : ID) : Nat := id.mIDType

/-- `ID.Pid` of `xxid.go`. -/
def ID.Pid (id : ID) : Nat := id.pidOrPort

/-- `ID.Port` of `xxid.go`. -/
def ID.Port (id : ID) : Nat := id.pidOrPort

/-- `ID.MachineID` of `xxid.go`: the first `machineIdLength[mIDType]`
machine-ID bytes. -/
def ID.MachineID (id : ID) : List Nat :=
  id.machineID.take (machineIdLength id.mIDType)

/-- `ID.IP` of `xxid.go`: the machine-ID bytes as an IP address for the
IPv4 and IPv6 machine-ID types, and Go `nil` (here `none`) otherwise. -/
def ID.IP (id : ID) : Option (List Nat) :=
  if id.mIDType = IPv4 then some (id.machineID.take 4)
  else if id.mIDType = IPv6 then some (id.machineID.take 16)
  else none

deriving instance DecidableEq for Except

theorem binEncodedLength_eq (d : Nat) (hd : d ≤ 6) :
    binEncodedLength d = 12 + machineIdLength d := by
  interval_cases d <;> rfl

theorem machineIdLength_cases (d : Nat) (hd : d ≤ 6) :
    machineIdLength d = 4 ∨ machineIdLength d = 8 ∨ machineIdLength d = 16 := by
  interval_cases d <;> simp [machineIdLength]

/-- The 48-bit timestamp-and-type group written by `encodeBinary`, for a
non-negative timestamp representable in 45 bits, is exactly
`timeMsec * 8 + mIDType`. -/
theorem encode_group_eq (t : Int) (d : Nat) (ht0 : 0 ≤ t) (ht : t < 2 ^ 45)
    (hd : d < 8) :
    ((t % 2 ^ 64).toNat <<< 3 % 2 ^ 64 ||| d) % 2 ^ 48 = t.toNat * 8 + d := by
  have h1 : ((t % 2 ^ 64).toNat : Nat) = t.toNat := by omega
  have h2 : t.toNat < 2 ^ 45 := by omega
  rw [h1, Nat.shiftLeft_eq]
  have h3 : t.toNat * 2 ^ 3 % 2 ^ 64 = t.toNat * 2 ^ 3 := Nat.mod_eq_of_lt (by omega)
  rw [h3, mul_two_pow_lor_eq_add _ d 3 (by omega)]
  have h4 : t.toNat * 2 ^ 3 + d < 2 ^ 48 := by omega
  rw [Nat.mod_eq_of_lt h4]
  omega

/-- Round-trip of the binary codec: for a well-formed ID whose timestamp is
non-negative and fits in 45 bits, whose machine-ID type is known, and whose
machine-ID bytes beyond the width of its type are zero, decoding the
encoding restores the ID exactly. -/
theorem decodeBinary_encodeBinary (id : ID) (hwf : id.WF)
    (ht0 : 0 ≤ id.timeMsec) (ht : id.timeMsec < 2 ^ 45) (hd : id.mIDType ≤ 6)
    (htail : id.machineID.drop (machineIdLength id.mIDType)
      = List.replicate (16 - machineIdLength id.mIDType) 0) :
    decodeBinary (encodeBinary id) = .ok id := by
  obtain ⟨t, pid, cnt, flg, d, mid⟩ := id
  simp only [ID.WF] at hwf
  obtain ⟨hpid, hcnt, hflg, -, hmlen, hmwf⟩ := hwf
  simp only at ht0 ht hd htail ⊢
  set m := machineIdLength d with hm
  have hmc : m = 4 ∨ m = 8 ∨ m = 16 := machineIdLength_cases d hd
  have hm16 : m ≤ 16 := by omega
  have hx : ((t % 2 ^ 64).toNat <<< 3 % 2 ^ 64 ||| d) % 2 ^ 48
      = t.toNat * 8 + d := encode_group_eq t d ht0 ht (by omega)
  have hxlt : t.toNat * 8 + d < 2 ^ 48 := by omega
  set A := toDigits 256 6 (t.toNat * 8 + d) with hA
  set B := toDigits 256 2 cnt with hB
  set M := mid.take m with hM
  set P := toDigits 256 2 pid with hP
  set F := toDigits 256 2 flg with hF
  have henc : encodeBinary ⟨t, pid, cnt, flg, d, mid⟩ = A ++ (B ++ (M ++ (P ++ F))) := by
    simp only [encodeBinary, hx, hA, hB, hM, hP, hF, ← hm, List.append_assoc]
  have hlA : A.length = 6 := length_toDigits _ _ _
  have hlB : B.length = 2 := length_toDigits _ _ _
  have hlM : M.length = m := by
    rw [hM, List.length_take, hmlen]; omega
  have hlP : P.length = 2 := length_toDigits _ _ _
  have hlF : F.length = 2 := length_toDigits _ _ _
  have hlen : (A ++ (B ++ (M ++ (P ++ F)))).length = 12 + m := by
    simp [hlA, hlB, hlM, hlP, hlF]; omega
  have htake8 : (A ++ (B ++ (M ++ (P ++ F)))).take 8 = A ++ B := by
    rw [← List.append_assoc, List.take_left']
    simp [hlA, hlB]
  have hvalA : fromDigits 256 A = t.toNat * 8 + d :=
    fromDigits_toDigits_of_lt _ _ _ (by norm_num; omega)
  have hvalB : fromDigits 256 B = cnt :=
    fromDigits_toDigits_of_lt _ _ _ (by norm_num; omega)
  have htmp : fromDigits 256 (A ++ B) >>> 16 = t.toNat * 8 + d := by
    rw [fromDigits_append, hvalA, hvalB, hlB, Nat.shiftRight_eq_div_pow]
    norm_num
    omega
  have hgrp_and : (t.toNat * 8 + d) &&& 7 = d := by
    have h7 : (7 : Nat) = 2 ^ 3 - 1 := rfl
    rw [h7, Nat.and_pow_two_sub_one_eq_mod]
    omega
  have hgrp_shr : (t.toNat * 8 + d) >>> 3 = t.toNat := by
    rw [Nat.shiftRight_eq_div_pow]
    norm_num
    omega
  rw [henc]
  simp only [decodeBinary, hlen, htake8, htmp, hgrp_and, hgrp_shr]
  rw [if_neg (by simp only [minBinEncodedLen]; omega)]
  rw [if_neg (by simp only [maxMachineIDType, Specified16]; omega)]
  rw [if_neg (by rw [binEncodedLength_eq d hd, ← hm]; omega)]
  have hdrop6 : (A ++ (B ++ (M ++ (P ++ F)))).drop 6 = B ++ (M ++ (P ++ F)) :=
    List.drop_left' hlA
  have hdrop8 : (A ++ (B ++ (M ++ (P ++ F)))).drop 8 = M ++ (P ++ F) := by
    rw [← List.append_assoc, List.drop_left']
    simp [hlA, hlB]
  have hdrop8m : (A ++ (B ++ (M ++ (P ++ F)))).drop (8 + m) = P ++ F := by
    rw [← List.drop_drop, hdrop8, List.drop_left' hlM]
  have hdrop10m : (A ++ (B ++ (M ++ (P ++ F)))).drop (10 + m) = F := by
    have h10 : 10 + m = (8 + m) + 2 := by omega
    rw [h10, ← List.drop_drop, hdrop8m, List.drop_left' hlP]
  have htakeF : F.take 2 = F := by rw [← hlF]; exact List.take_length F
  simp only [← hm]
  rw [hdrop6, hdrop8, hdrop8m, hdrop10m]
  rw [List.take_left' hlB, List.take_left' hlM, List.take_left' hlP, htakeF]
  rw [hvalB]
  have hvalP : fromDigits 256 P = pid :=
    fromDigits_toDigits_of_lt _ _ _ (by norm_num; omega)
  have hvalF : fromDigits 256 F = flg :=
    fromDigits_toDigits_of_lt _ _ _ (by norm_num; omega)
  rw [hvalP, hvalF]
  have hmid : M ++ List.replicate (16 - m) 0 = mid := by
    rw [hM, ← htail, List.take_append_drop]
  rw [hmid]
  have htms : Int.ofNat (t.toNat) = t := Int.toNat_of_nonneg ht0
  rw [htms]

/-- The 48-bit group written by `encodeBinary`, for an arbitrary `int64`
timestamp: Go's `uint64(t)<<3 | uint64(d)` truncated to 48 bits equals the
mathematical `(t * 8 + d) mod 2 ^ 48` (`t << 3 | d` is `t * 8 + d` for
`d < 8`). -/
theorem encode_group_eq_general (t : Int) (d : Nat) (hd : d < 8) :
    ((t % 2 ^ 64).toNat <<< 3 % 2 ^ 64 ||| d) % 2 ^ 48
      = ((t * 8 + d) % 2 ^ 48).toNat := by
  rw [Nat.shiftLeft_eq]
  have h8 : (t % 2 ^ 64).toNat * 2 ^ 3 % 2 ^ 64
      = ((t % 2 ^ 64).toNat * 2 ^ 3 % 2 ^ 64 / 8) * 2 ^ 3 := by omega
  rw [h8, mul_two_pow_lor_eq_add _ d 3 hd]
  omega

/-- The binary layout as the specification words it: a 48-bit big-endian
group holding `(timestamp << 3) | discriminant` truncated to 48 bits (for a
3-bit discriminant this is `timestamp * 8 + discriminant`), then the 16-bit
counter, the machine-ID bytes at the width of the machine-ID kind, the
16-bit pid-or-port and the 16-bit flag, big-endian throughout. -/
def specBinaryLayout (id : ID) : List Nat :=
  toDigits 256 6 (((id.timeMsec * 8 + id.mIDType) % 2 ^ 48).toNat)
    ++ toDigits 256 2 id.counter
    ++ id.machineID.take (machineIdLength id.mIDType)
    ++ toDigits 256 2 id.pidOrPort
    ++ toDigits 256 2 id.flag

theorem encodeBinary_eq_specBinaryLayout (id : ID) (hd : id.mIDType < 8) :
    encodeBinary id = specBinaryLayout id := by
  unfold encodeBinary specBinaryLayout
  rw [encode_group_eq_general id.timeMsec id.mIDType hd]

theorem encodeBinary_length (id : ID) (hmlen : id.machineID.length = 16)
    (hd : id.mIDType ≤ 6) :
    (encodeBinary id).length = binEncodedLength id.mIDType := by
  have hm16 : machineIdLength id.mIDType ≤ 16 := by
    rcases machineIdLength_cases id.mIDType hd with h | h | h <;> omega
  simp only [encodeBinary, List.length_append, length_toDigits, List.length_take,
    hmlen, binEncodedLength_eq id.mIDType hd]
  omega

/-- The decoder's 48-bit group: the big-endian value of the first 8 bytes
shifted right by 16 equals the big-endian value of the first 6 bytes. -/
theorem tmp_eq_raw48 (src : List Nat) (hwf : WfBytes src) (hlen : 8 ≤ src.length) :
    fromDigits 256 (src.take 8) >>> 16 = fromDigits 256 (src.take 6) := by
  have hsplit : src.take 8 = src.take 6 ++ (src.drop 6).take 2 :=
    List.take_add src 6 2
  have hlen2 : ((src.drop 6).take 2).length = 2 := by
    rw [List.length_take, List.length_drop]
    omega
  have hv : fromDigits 256 ((src.drop 6).take 2) < 2 ^ 16 := by
    have h := fromDigits_lt 256 ((src.drop 6).take 2)
      (fun x hx => hwf x (List.mem_of_mem_drop (List.mem_of_mem_take hx)))
    rw [hlen2] at h
    norm_num at h
    omega
  rw [hsplit, fromDigits_append, hlen2, Nat.shiftRight_eq_div_pow]
  norm_num
  omega

/-- C1, counterexample: the claim as stated fails.  The ID below has a
non-negative 45-bit timestamp and known machine-ID type `Random`, yet
`ParseBinary (id.Binary ())` is not the identical ID: the encoder writes
only the first `machineIdLength` machine-ID bytes, so the nonzero
sixteenth machine-ID byte is not recovered. -/
theorem c1_counterexample :
    ID.WF ⟨0, 0, 0, 0, 0, [0, 0, 0, 0, 0, 0, 0, 0, 0, 0, 0, 0, 0, 0, 0, 1]⟩
      ∧ 0 ≤ (⟨0, 0, 0, 0, 0, [0, 0, 0, 0, 0, 0, 0, 0, 0, 0, 0, 0, 0, 0, 0, 1]⟩ : ID).timeMsec
      ∧ (⟨0, 0, 0, 0, 0, [0, 0, 0, 0, 0, 0, 0, 0, 0, 0, 0, 0, 0, 0, 0, 1]⟩ : ID).timeMsec < 2 ^ 45
      ∧ (⟨0, 0, 0, 0, 0, [0, 0, 0, 0, 0, 0, 0, 0, 0, 0, 0, 0, 0, 0, 0, 1]⟩ : ID).mIDType ≤ 6
      ∧ ParseBinary (ID.Binary ⟨0, 0, 0, 0, 0, [0, 0, 0, 0, 0, 0, 0, 0, 0, 0, 0, 0, 0, 0, 0, 1]⟩)
          ≠ .ok ⟨0, 0, 0, 0, 0, [0, 0, 0, 0, 0, 0, 0, 0, 0, 0, 0, 0, 0, 0, 0, 1]⟩ := by
  decide

/-- C1, amended: for every well-formed ID whose timestamp is non-negative
and representable in the 45 bits left of the 3-bit discriminant, whose
machine-ID type is one of the seven known kinds, and whose machine-ID
bytes beyond the width of its kind are zero, parsing the binary encoding
returns the identical ID: all fields are recovered exactly. -/
theorem c1_parseBinary_binary_roundtrip (id : ID) (hwf : id.WF)
    (ht0 : 0 ≤ id.timeMsec) (ht : id.timeMsec < 2 ^ 45) (hd : id.mIDType ≤ 6)
    (htail : id.machineID.drop (machineIdLength id.mIDType)
      = List.replicate (16 - machineIdLength id.mIDType) 0) :
    ParseBinary id.Binary = .ok id :=
  decodeBinary_encodeBinary id hwf ht0 ht hd htail

/-- C1, witness: the amended round-trip at a concrete ID of machine-ID
type `Specified8`. -/
theorem c1_parseBinary_binary_roundtrip_witness :
    ParseBinary (ID.Binary ⟨1300816219000, 0xe428, 1, 0x8000, 5,
      [0x7c, 0x60, 0xf4, 0x86, 1, 2, 3, 4, 0, 0, 0, 0, 0, 0, 0, 0]⟩)
      = .ok ⟨1300816219000, 0xe428, 1, 0x8000, 5,
      [0x7c, 0x60, 0xf4, 0x86, 1, 2, 3, 4, 0, 0, 0, 0, 0, 0, 0, 0]⟩ :=
  c1_parseBinary_binary_roundtrip _ (by decide) (by decide) (by decide)
    (by decide) (by decide)

/-- C2: for every ID (well-typed fields, known machine-ID kind) the binary
encoding has total width 16, 20 or 28 bytes determined solely by the
machine-ID type, and consists, in order, of the 6-byte big-endian
`(timeMillis << 3 | discriminant) mod 2 ^ 48` group, the 2-byte counter,
the machine-ID bytes at the kind's width, the 2-byte pid-or-port and the
2-byte flag; and decoding recovers the timestamp as `raw >> 3` and the
discriminant as `raw & 0x7` from the 48-bit value `raw` of the first six
bytes. -/
theorem c2_binary_layout :
    (∀ id : ID, id.machineID.length = 16 → id.mIDType ≤ 6 →
      encodeBinary id = specBinaryLayout id
        ∧ (encodeBinary id).length = binEncodedLength id.mIDType
        ∧ (binEncodedLength id.mIDType = 16 ∨ binEncodedLength id.mIDType = 20
            ∨ binEncodedLength id.mIDType = 28))
    ∧ (∀ src : List Nat, WfBytes src → 16 ≤ src.length → ∀ id : ID,
        decodeBinary src = .ok id →
          id.timeMsec = Int.ofNat (fromDigits 256 (src.take 6) >>> 3)
            ∧ id.mIDType = fromDigits 256 (src.take 6) &&& 7) := by
  constructor
  · intro id h16 hd
    refine ⟨encodeBinary_eq_specBinaryLayout id (by omega),
      encodeBinary_length id h16 hd, ?_⟩
    have hcases := machineIdLength_cases id.mIDType hd
    rw [binEncodedLength_eq _ hd]
    omega
  · intro src hwf hlen id h
    simp only [decodeBinary] at h
    rw [if_neg (by simp only [minBinEncodedLen]; omega)] at h
    rw [tmp_eq_raw48 src hwf (by omega)] at h
    split at h
    · exact absurd h (by simp)
    split at h
    · exact absurd h (by simp)
    rw [Except.ok.injEq] at h
    subst h
    exact ⟨rfl, rfl⟩

/-- C2, witness: the layout equation at a concrete IPv4-typed ID, and the
decode recovery at the all-zero 16-byte buffer. -/
theorem c2_binary_layout_witness :
    encodeBinary ⟨5, 6, 7, 8, 2, [9, 8, 7, 6, 0, 0, 0, 0, 0, 0, 0, 0, 0, 0, 0, 0]⟩
        = specBinaryLayout ⟨5, 6, 7, 8, 2, [9, 8, 7, 6, 0, 0, 0, 0, 0, 0, 0, 0, 0, 0, 0, 0]⟩
      ∧ ((⟨0, 0, 0, 0, 0, List.replicate 16 0⟩ : ID).timeMsec
            = Int.ofNat (fromDigits 256 ((List.replicate (16:Nat) (0:Nat)).take 6) >>> 3)
          ∧ (⟨0, 0, 0, 0, 0, List.replicate 16 0⟩ : ID).mIDType
            = fromDigits 256 ((List.replicate (16:Nat) (0:Nat)).take 6) &&& 7) :=
  ⟨(c2_binary_layout.1 _ (by decide) (by decide)).1,
    c2_binary_layout.2 (List.replicate 16 0) (by decide) (by decide)
      ⟨0, 0, 0, 0, 0, List.replicate 16 0⟩ (by decide)⟩

theorem seg_length (src : List Nat) (k n : Nat) (h : k + n ≤ src.length) :
    ((src.drop k).take n).length = n := by
  rw [List.length_take, List.length_drop]
  omega

theorem fromDigits_seg_lt (src : List Nat) (k n : Nat) (hwf : WfBytes src)
    (h : k + n ≤ src.length) :
    fromDigits 256 ((src.drop k).take n) < 256 ^ n := by
  have hlt := fromDigits_lt 256 ((src.drop k).take n)
    (fun x hx => hwf x (List.mem_of_mem_drop (List.mem_of_mem_take hx)))
  rwa [seg_length src k n h] at hlt

/-- C9: `ParseBinary` is total over arbitrary byte input.  Inputs shorter
than 16 bytes are rejected with the binary-length error first; then a
recovered discriminant above 6 is rejected with the unknown-type error;
then a length different from the width implied by the discriminant is
rejected with the binary-length error; otherwise parsing succeeds with a
well-formed ID carrying that discriminant. -/
theorem c9_parseBinary_total (src : List Nat) (hwf : WfBytes src) :
    (src.length < 16 → ParseBinary src = .error .incorrectBinaryLength)
      ∧ (16 ≤ src.length → fromDigits 256 (src.take 6) &&& 7 > 6 →
          ParseBinary src = .error .unknownMachineIDType)
      ∧ (16 ≤ src.length → fromDigits 256 (src.take 6) &&& 7 ≤ 6 →
          src.length ≠ binEncodedLength (fromDigits 256 (src.take 6) &&& 7) →
          ParseBinary src = .error .incorrectBinaryLength)
      ∧ (16 ≤ src.length → fromDigits 256 (src.take 6) &&& 7 ≤ 6 →
          src.length = binEncodedLength (fromDigits 256 (src.take 6) &&& 7) →
          ∃ id : ID, ParseBinary src = .ok id ∧ id.WF
            ∧ id.mIDType = fromDigits 256 (src.take 6) &&& 7) := by
  refine ⟨?_, ?_, ?_, ?_⟩
  · intro h
    simp only [ParseBinary, decodeBinary]
    rw [if_pos (by simp only [minBinEncodedLen]; omega)]
  · intro h16 hgt
    simp only [ParseBinary, decodeBinary]
    rw [if_neg (by simp only [minBinEncodedLen]; omega),
      tmp_eq_raw48 src hwf (by omega),
      if_pos (by simp only [maxMachineIDType, Specified16]; omega)]
  · intro h16 hle hne
    simp only [ParseBinary, decodeBinary]
    rw [if_neg (by simp only [minBinEncodedLen]; omega),
      tmp_eq_raw48 src hwf (by omega),
      if_neg (by simp only [maxMachineIDType, Specified16]; omega),
      if_pos hne]
  · intro h16 hle heq
    simp only [ParseBinary, decodeBinary]
    rw [if_neg (by simp only [minBinEncodedLen]; omega),
      tmp_eq_raw48 src hwf (by omega),
      if_neg (by simp only [maxMachineIDType, Specified16]; omega),
      if_neg (by omega)]
    refine ⟨_, rfl, ?_, rfl⟩
    have hmc := machineIdLength_cases _ hle
    have hlen12 : src.length
        = 12 + machineIdLength (fromDigits 256 (src.take 6) &&& 7) := by
      rw [heq, binEncodedLength_eq _ hle]
    set mlen := machineIdLength (fromDigits 256 (src.take 6) &&& 7) with hml
    refine ⟨?_, ?_, ?_, ?_, ?_, ?_⟩
    · have := fromDigits_seg_lt src (8 + mlen) 2 hwf (by omega)
      norm_num at this ⊢
      omega
    · have := fromDigits_seg_lt src 6 2 hwf (by omega)
      norm_num at this ⊢
      omega
    · have := fromDigits_seg_lt src (10 + mlen) 2 hwf (by omega)
      norm_num at this ⊢
      omega
    · have h7 : (7 : Nat) = 2 ^ 3 - 1 := rfl
      rw [h7, Nat.and_pow_two_sub_one_eq_mod]
      have := Nat.mod_lt (fromDigits 256 (src.take 6)) (show 0 < 2 ^ 3 by norm_num)
      norm_num at this ⊢
      omega
    · simp only [List.length_append, List.length_replicate,
        seg_length src 8 mlen (by omega)]
      omega
    · intro x hx
      rcases List.mem_append.mp hx with h | h
      · exact hwf x (List.mem_of_mem_drop (List.mem_of_mem_take h))
      · rw [List.mem_replicate] at h
        omega

/-- C9, witness: the characterization applied to the all-zero 20-byte
buffer, whose discriminant 0 implies width 16, so the parse is rejected
for its length. -/
theorem c9_parseBinary_total_witness :
    ParseBinary (List.replicate 20 0) = .error .incorrectBinaryLength :=
  (c9_parseBinary_total (List.replicate 20 0) (by decide)).2.2.1
    (by decide) (by decide) (by decide)

theorem and_two_pow_15 (g : Nat) : g &&& 2 ^ 15 = 2 ^ 15 * (g / 2 ^ 15 % 2) := by
  rw [Nat.and_two_pow, Nat.testBit_to_div_mod]
  rcases Nat.mod_two_eq_zero_or_one (g / 2 ^ 15) with h | h <;> rw [h] <;> simp

theorem and_7FFF_eq (g : Nat) : g &&& 0x7FFF = g % 2 ^ 15 := by
  have h : (0x7FFF : Nat) = 2 ^ 15 - 1 := by norm_num
  rw [h, Nat.and_pow_two_sub_one_eq_mod]

theorem lor_two_pow_15 (f : Nat) (hf : f < 2 ^ 15) :
    f ||| 2 ^ 15 = 2 ^ 15 + f := by
  rw [Nat.lor_comm]
  have h := mul_two_pow_lor_eq_add 1 f 15 hf
  simpa using h

/-- C8, counterexample: the sub-claim that `Flag()` returns 0 exactly when
the marker bit is clear fails: an ID whose flag field is exactly the
marker bit (the result of `SetFlag(0)`) reads back 0 from `Flag()` while
its marker bit is set. -/
theorem c8_counterexample :
    ID.Flag ⟨0, 0, 0, 0x8000, 0, List.replicate 16 0⟩ = 0
      ∧ (⟨0, 0, 0, 0x8000, 0, List.replicate 16 0⟩ : ID).flag &&& flagMask ≠ 0 := by
  decide

/-- C8, amended: `SetFlag` stores the flag with the marker bit, so
`SetFlag(f).Flag() = f` for every `f < 2 ^ 15`; `Flag()` returns 0
whenever the marker bit is clear; for a 16-bit flag field, `Flag()`
returns 0 precisely when the marker bit is clear or the field is exactly
the marker bit (that is, `SetFlag(0)` also reads back 0); and an ID
carrying `SetFlag(0)` has the marker bit set internally, so it differs
from every ID with no flag set. -/
theorem c8_flag_marker :
    (∀ (id : ID) (f : Nat), f < 2 ^ 15 → (id.SetFlag f).Flag = f)
      ∧ (∀ id : ID, id.flag &&& flagMask = 0 → id.Flag = 0)
      ∧ (∀ id : ID, id.flag < 2 ^ 16 →
          (id.Flag = 0 ↔ (id.flag &&& flagMask = 0 ∨ id.flag = flagMask)))
      ∧ (∀ id : ID, (id.SetFlag 0).flag = flagMask) := by
  refine ⟨?_, ?_, ?_, ?_⟩
  · intro id f hf
    simp only [ID.SetFlag, ID.Flag, flagMask, lor_two_pow_15 f hf,
      and_two_pow_15, and_7FFF_eq]
    split <;> omega
  · intro id h
    simp [ID.Flag, h]
  · intro id h16
    simp only [ID.Flag, flagMask, and_two_pow_15, and_7FFF_eq]
    split <;> omega
  · intro id
    simp [ID.SetFlag, flagMask]

/-- C8, witness: the amended flag behaviour at concrete IDs. -/
theorem c8_flag_marker_witness :
    (ID.SetFlag ⟨0, 0, 0, 0, 0, []⟩ 5).Flag = 5
      ∧ ((⟨0, 0, 0, 123, 0, []⟩ : ID).Flag = 0
          ↔ ((⟨0, 0, 0, 123, 0, []⟩ : ID).flag &&& flagMask = 0
              ∨ (⟨0, 0, 0, 123, 0, []⟩ : ID).flag = flagMask)) :=
  ⟨c8_flag_marker.1 _ 5 (by decide),
    c8_flag_marker.2.2.1 ⟨0, 0, 0, 123, 0, []⟩ (by decide)⟩

/-- Go `net.IP.String` on a 4-byte address: dotted decimal. -/
def ipv4String (b : List Nat) : String :=
  String.intercalate "." (b.map (fun x => toString x))

/-- Modelled from the spec: stand-in for Go `net.IP.String` on a 16-byte
address (standard library code outside this repository); no claim depends
on the exact text, only on which machine-ID types produce an address at
all. -/
def ipv6String (b : List Nat) : String :=
  String.intercalate ":"
    (((List.range 8).map (fun i => b.getD (2 * i) 0 * 256 + b.getD (2 * i + 1) 0)).map
      (fun g => String.mk (Nat.toDigits 16 g)))

/-- `ID.IPPortAddr` of `xxid.go`: the IP address joined with the port for
the IPv4 and IPv6 machine-ID types, and the empty string otherwise. -/
def ID.IPPortAddr (id : ID) : String :=
  if id.mIDType = IPv4 then ipv4String (id.machineID.take 4) ++ ":" ++ toString id.Port
  else if id.mIDType = IPv6 then
    "[" ++ ipv6String (id.machineID.take 16) ++ "]:" ++ toString id.Port
  else ""

/-- C10: for every ID whose machine-ID type is neither IPv4 nor IPv6,
`IP()` returns nil and `IPPortAddr()` returns the empty string; for an
IPv4-typed or IPv6-typed ID, `IP()` returns exactly the stored 4-byte or
16-byte address. -/
theorem c10_ip_accessors (id : ID) :
    (id.mIDType ≠ IPv4 → id.mIDType ≠ IPv6 → id.IP = none ∧ id.IPPortAddr = "")
      ∧ (id.mIDType = IPv4 → id.IP = some (id.machineID.take 4))
      ∧ (id.mIDType = IPv6 → id.IP = some (id.machineID.take 16)) := by
  refine ⟨?_, ?_, ?_⟩
  · intro h4 h6
    constructor
    · simp only [ID.IP, if_neg h4, if_neg h6]
    · simp only [ID.IPPortAddr, if_neg h4, if_neg h6]
  · intro h4
    simp only [ID.IP, if_pos h4]
  · intro h6
    by_cases h4 : id.mIDType = IPv4
    · rw [h4] at h6
      exact absurd h6 (by decide)
    · simp only [ID.IP, if_neg h4, if_pos h6]

/-- C10, witness: the accessors at a HostID-typed, an IPv4-typed and an
IPv6-typed concrete ID. -/
theorem c10_ip_accessors_witness :
    ((⟨0, 0, 0, 0, 1, List.replicate 16 7⟩ : ID).IP = none
        ∧ (⟨0, 0, 0, 0, 1, List.replicate 16 7⟩ : ID).IPPortAddr = "")
      ∧ (⟨0, 0, 0, 0, 2, List.replicate 16 7⟩ : ID).IP
          = some ((List.replicate (16:Nat) (7:Nat)).take 4)
      ∧ (⟨0, 0, 0, 0, 3, List.replicate 16 7⟩ : ID).IP
          = some ((List.replicate (16:Nat) (7:Nat)).take 16) :=
  ⟨(c10_ip_accessors ⟨0, 0, 0, 0, 1, List.replicate 16 7⟩).1 (by decide) (by decide),
    (c10_ip_accessors ⟨0, 0, 0, 0, 2, List.replicate 16 7⟩).2.1 (by decide),
    (c10_ip_accessors ⟨0, 0, 0, 0, 3, List.replicate 16 7⟩).2.2 (by decide)⟩

/-! ## The base-62 codec

The repository's variable-width `encodeBase62` / `decodeBase62` (the
rewritten `base62.go`) are not in the source snapshot: the file present
under that name is the earlier fixed 15-to-20-byte codec of the previous
`ID` layout, while the callers `ID.Base62` and `ParseBase62` in `xxid.go`,
the error constructor `errInvalidBase62Character`, and the test
`Test_encodeBase62_decodeBase62` (widths 16/20/28 to digit counts
22/27/38) all belong to the rewritten codec.  The two functions are
therefore modelled from the specification, section 4.1. -/

/-- The base-62 digit alphabet `0-9A-Za-z` of `base62.go` as byte values,
ordered so that lexicographic order of encoded strings matches numeric
order. -/
def base62Characters : List Nat :=
  (List.range 10).map (fun i => 48 + i) ++ (List.range 26).map (fun i => 65 + i)
    ++ (List.range 26).map (fun i => 97 + i)

/-- The decoding table `dec` of `base62.go`: the digit value of a byte,
`none` for a byte outside the 62-character alphabet. -/
def decVal (c : Nat) : Option Nat :=
  if 48 ≤ c ∧ c ≤ 57 then some (c - 48)
  else if 65 ≤ c ∧ c ≤ 90 then some (10 + (c - 65))
  else if 97 ≤ c ∧ c ≤ 122 then some (36 + (c - 97))
  else none

/-- Modelled from the spec: `encodeBase62` (BigRadixCodec.encode, missing
from the source snapshot, see above).  The big-endian byte buffer is one
unsigned integer; repeated long division by 62 yields the digits of a
fixed-width output, left-padded with the zero digit. -/
def encodeBase62 (w : Nat) (src : List Nat) : List Nat :=
  (toDigits 62 w (fromDigits 256 src)).map (fun d => base62Characters.getD d 0)

/-- Modelled from the spec: `decodeBase62` (BigRadixCodec.decode, missing
from the source snapshot, see above).  Every input character is checked
against the alphabet before any arithmetic begins; a character outside the
alphabet fails with the invalid-digit error carrying that character;
otherwise the digit string is one integer, written out as exactly `w`
big-endian bytes, zero-padded at the front. -/
def decodeBase62 (w : Nat) (src : List Nat) : Except Err (List Nat) :=
  match src.find? (fun c => (decVal c).isNone) with
  | some c => .error (.invalidBase62Character c)
  | none => .ok (toDigits 256 w (fromDigits 62 (src.map (fun c => (decVal c).getD 0))))

/-- `ID.Base62` of `xxid.go`: the binary form pushed through the base-62
encoder at the digit count of the machine-ID type. -/
def ID.Base62 (id : ID) : List Nat :=
  encodeBase62 (b62EncodedLength id.mIDType) (encodeBinary id)

/-- `ParseBase62` of `xxid.go`: length must be one of the three valid
digit counts (checked against the min/max bounds and then the sparse
`binDecodedLength` table), then the base-62 decode, then the binary
decode. -/
def ParseBase62 (src : List Nat) : Except Err ID :=
  if src.length < minBase62EncodedLen ∨ maxBase62EncodedLen < src.length then
    .error .incorrectBase62Length
  else
    let binLen := binDecodedLength src.length
    if binLen = 0 then .error .incorrectBase62Length
    else
      match decodeBase62 binLen src with
      | .error e => .error e
      | .ok buf => decodeBinary buf

/-- C3: the all-zero and all-0xFF buffers round-trip exactly through the
base-62 codec at each of the three binary widths 16, 20, 28 (digit widths
22, 27, 38). -/
theorem c3_base62_boundary_roundtrip :
    decodeBase62 16 (encodeBase62 22 (List.replicate 16 0)) = .ok (List.replicate 16 0)
      ∧ decodeBase62 16 (encodeBase62 22 (List.replicate 16 255))
          = .ok (List.replicate 16 255)
      ∧ decodeBase62 20 (encodeBase62 27 (List.replicate 20 0)) = .ok (List.replicate 20 0)
      ∧ decodeBase62 20 (encodeBase62 27 (List.replicate 20 255))
          = .ok (List.replicate 20 255)
      ∧ decodeBase62 28 (encodeBase62 38 (List.replicate 28 0)) = .ok (List.replicate 28 0)
      ∧ decodeBase62 28 (encodeBase62 38 (List.replicate 28 255))
          = .ok (List.replicate 28 255) := by
  decide

theorem decodeBinary_no_b62_error (buf : List Nat) (c0 : Nat) :
    decodeBinary buf ≠ .error (.invalidBase62Character c0) := by
  simp only [decodeBinary]
  split
  · simp
  · split
    · simp
    · split <;> simp

/-- C6: a base-62 input containing a character outside the alphabet fails
with the invalid-digit error (carrying an offending character), the check
happening per character before any arithmetic; inputs of valid length made
only of alphabet characters never produce that error, and `ParseBase62`
behaves accordingly. -/
theorem c6_base62_invalid_digit :
    (∀ (w : Nat) (src : List Nat) (c : Nat), c ∈ src → decVal c = none →
        ∃ c0, decVal c0 = none
          ∧ decodeBase62 w src = .error (.invalidBase62Character c0))
      ∧ (∀ (w : Nat) (src : List Nat), (∀ c ∈ src, (decVal c).isSome) →
          decodeBase62 w src
            = .ok (toDigits 256 w (fromDigits 62 (src.map (fun c => (decVal c).getD 0)))))
      ∧ (∀ src : List Nat, src.length = 22 ∨ src.length = 27 ∨ src.length = 38 →
          (∃ c ∈ src, decVal c = none) →
          ∃ c0, decVal c0 = none
            ∧ ParseBase62 src = .error (.invalidBase62Character c0))
      ∧ (∀ src : List Nat, (∀ c ∈ src, (decVal c).isSome) →
          ∀ c0, ParseBase62 src ≠ .error (.invalidBase62Character c0)) := by
  have herr : ∀ (w : Nat) (src : List Nat) (c : Nat), c ∈ src → decVal c = none →
      ∃ c0, decVal c0 = none
        ∧ decodeBase62 w src = .error (.invalidBase62Character c0) := by
    intro w src c hc hnone
    have hsome : (src.find? (fun c => (decVal c).isNone)).isSome := by
      rw [List.find?_isSome]
      exact ⟨c, hc, by simp [hnone]⟩
    obtain ⟨c0, hc0⟩ := Option.isSome_iff_exists.mp hsome
    refine ⟨c0, ?_, ?_⟩
    · have := List.find?_some hc0
      simpa [Option.isNone_iff_eq_none] using this
    · simp only [decodeBase62, hc0]
  have hok : ∀ (w : Nat) (src : List Nat), (∀ c ∈ src, (decVal c).isSome) →
      decodeBase62 w src
        = .ok (toDigits 256 w (fromDigits 62 (src.map (fun c => (decVal c).getD 0)))) := by
    intro w src hall
    have hnone : src.find? (fun c => (decVal c).isNone) = none := by
      rw [List.find?_eq_none]
      intro c hc
      simp [Option.isNone_iff_eq_none]
      exact Option.isSome_iff_ne_none.mp (hall c hc)
    simp only [decodeBase62, hnone]
  refine ⟨herr, hok, ?_, ?_⟩
  · intro src hlen ⟨c, hc, hnone⟩
    obtain ⟨c0, hc0, hdec⟩ := herr (binDecodedLength src.length) src c hc hnone
    refine ⟨c0, hc0, ?_⟩
    rcases hlen with h | h | h <;>
      (rw [h] at hdec
       simp only [binDecodedLength] at hdec
       norm_num at hdec
       simp only [ParseBase62, h, minBase62EncodedLen, maxBase62EncodedLen]
       rw [if_neg (by omega)]
       simp only [binDecodedLength]
       norm_num
       rw [hdec])
  · intro src hall c0
    simp only [ParseBase62]
    split
    · simp
    · split
      · simp
      · rw [hok _ src hall]
        exact decodeBinary_no_b62_error _ c0

/-- C6, witness: the invalid-digit behaviour at concrete inputs: byte 33
is outside the alphabet, byte 48 is the zero digit. -/
theorem c6_base62_invalid_digit_witness :
    (∃ c0, decVal c0 = none
        ∧ decodeBase62 16 [33] = .error (.invalidBase62Character c0))
      ∧ (∃ c0, decVal c0 = none
          ∧ ParseBase62 (33 :: List.replicate 21 48)
              = .error (.invalidBase62Character c0))
      ∧ ParseBase62 (List.replicate 22 48) ≠ .error (.invalidBase62Character 99) :=
  ⟨c6_base62_invalid_digit.1 16 [33] 33 (by decide) (by decide),
    c6_base62_invalid_digit.2.2.1 (33 :: List.replicate 21 48) (by decide)
      ⟨33, by decide, by decide⟩,
    c6_base62_invalid_digit.2.2.2 (List.replicate 22 48) (by decide) 99⟩

/-! ## The legible string form (ParseString) -/

/-- Value of a hexadecimal digit character, as Go `encoding/hex` accepts
them (digits, lowercase, uppercase); `none` otherwise. -/
def hexVal (c : Nat) : Option Nat :=
  if 48 ≤ c ∧ c ≤ 57 then some (c - 48)
  else if 97 ≤ c ∧ c ≤ 102 then some (10 + (c - 97))
  else if 65 ≤ c ∧ c ≤ 70 then some (10 + (c - 65))
  else none

/-- Go `hex.Decode`: pairs of hex characters to bytes, failing on a
non-hex character (an odd tail cannot occur at the call sites, which pass
even widths; it is a failure here). -/
def hexDecode : List Nat → Option (List Nat)
  | [] => some []
  | [_] => none
  | c1 :: c2 :: rest =>
    match hexVal c1, hexVal c2, hexDecode rest with
    | some hi, some lo, some bs => some ((hi * 16 + lo) :: bs)
    | _, _, _ => none

/-- `ParseString` of `xxid.go`, parameterized by the timestamp parser
`pt` standing for the Go standard library call
`time.ParseInLocation("20060102150405", str[:14], time.Local)` plus the
millisecond field (local-timezone calendar code outside this repository;
the claims about `ParseString` hold for every `pt`).  The Go code rejects
a length below 38, then computes the machine-ID type as the byte
`str[21] - '0'` (wrapping `uint8` subtraction), rejects a type above 6,
rejects a length different from `strEncodedLength[type]`, and only then
parses the timestamp, flag, machine-ID, pid and counter fields, failing
with the invalid-representation error when a sub-field fails. -/
def parseStringWith (pt : List Nat → Option Int) (str : List Nat) : Except Err ID :=
  if str.length < minStringEncodedLen then .error .incorrectStringLength
  else
    let machineIdType := (str.getD 21 0 + 256 - 48) % 256
    if machineIdType > maxMachineIDType then .error .unknownMachineIDType
    else if str.length ≠ strEncodedLength machineIdType then .error .incorrectStringLength
    else
      match pt (str.take 17) with
      | none => .error .invalidStringRepr
      | some timeMsec =>
        match hexDecode ((str.drop 17).take 4) with
        | none => .error .invalidStringRepr
        | some flagBytes =>
          let mIdLen := machineIdLength machineIdType
          match hexDecode ((str.drop 22).take (mIdLen * 2)) with
          | none => .error .invalidStringRepr
          | some mid =>
            match hexDecode ((str.drop (22 + mIdLen * 2)).take 4) with
            | none => .error .invalidStringRepr
            | some pidBytes =>
              match hexDecode ((str.drop (26 + mIdLen * 2)).take 4) with
              | none => .error .invalidStringRepr
              | some cntBytes =>
                .ok ⟨timeMsec, fromDigits 256 pidBytes, fromDigits 256 cntBytes,
                  fromDigits 256 flagBytes, machineIdType,
                  mid ++ List.replicate (16 - mIdLen) 0⟩

/-- C7: `ParseString` fails on every input whose length differs from the
width implied by the discriminant digit at position 21 (inputs shorter
than the 38-byte minimum are rejected outright), and for every input of
length at least 38 whose discriminant digit is outside 0 to 6 it returns
the unknown-machine-ID-type error regardless of the calendar and hex
fields: the theorems hold for every timestamp parser `pt`, so the
discriminant check precedes any calendar parsing. -/
theorem c7_parseString_checks :
    (∀ (pt : List Nat → Option Int) (str : List Nat), str.length < 38 →
        parseStringWith pt str = .error .incorrectStringLength)
      ∧ (∀ (pt : List Nat → Option Int) (str : List Nat), 38 ≤ str.length →
          (str.getD 21 0 + 256 - 48) % 256 > 6 →
          parseStringWith pt str = .error .unknownMachineIDType)
      ∧ (∀ (pt : List Nat → Option Int) (str : List Nat), 38 ≤ str.length →
          (str.getD 21 0 + 256 - 48) % 256 ≤ 6 →
          str.length ≠ strEncodedLength ((str.getD 21 0 + 256 - 48) % 256) →
          parseStringWith pt str = .error .incorrectStringLength) := by
  refine ⟨?_, ?_, ?_⟩
  · intro pt str h
    simp only [parseStringWith, minStringEncodedLen]
    rw [if_pos h]
  · intro pt str h16 hgt
    simp only [parseStringWith, minStringEncodedLen]
    rw [if_neg (by omega),
      if_pos (by simp only [maxMachineIDType, Specified16]; omega)]
  · intro pt str h16 hle hne
    simp only [parseStringWith, minStringEncodedLen]
    rw [if_neg (by omega),
      if_neg (by simp only [maxMachineIDType, Specified16]; omega),
      if_pos hne]

/-- C7, witness: the three rejections at concrete strings: a 37-byte
input, a 38-byte input with discriminant digit 7, and a 38-byte input
with discriminant digit 5 (which implies width 46). -/
theorem c7_parseString_checks_witness :
    parseStringWith (fun _ => some 0) (List.replicate 37 48)
        = .error .incorrectStringLength
      ∧ parseStringWith (fun _ => some 0)
          (List.replicate 21 48 ++ [55] ++ List.replicate 16 48)
          = .error .unknownMachineIDType
      ∧ parseStringWith (fun _ => some 0)
          (List.replicate 21 48 ++ [53] ++ List.replicate 16 48)
          = .error .incorrectStringLength :=
  ⟨c7_parseString_checks.1 _ _ (by decide),
    c7_parseString_checks.2.1 _ _ (by decide) (by decide),
    c7_parseString_checks.2.2 _ _ (by decide) (by decide) (by decide)⟩

/-! ## The monotonic sequencer and minting (New)

The rewritten `generator.go` holding `readTimeAndCounter`, `randFlag` and
the current `Generator` struct is not in the source snapshot (the file
present under that name is the earlier generator of the previous `ID`
layout); `New` and `newID` in `xxid.go` are its callers.  The sequencer is
modelled from the specification, section 4.4; `newID` is embedded from
`xxid.go` with the random flag as an explicit oracle argument. -/

/-- The `Generator` fields read by `newID` in `xxid.go` (the struct lives
in the missing rewritten `generator.go`). -/
structure Generator where
  pidOrPort : Nat
  flag : Nat
  mIDType : Nat
  machineID : List Nat

/-- Modelled from the spec: `readTimeAndCounter` (missing from the source
snapshot, see above).  Inputs are the stored last-issued composite, this
call's wall-clock millisecond reading `t` and this call's wrapped 16-bit
counter increment `c`.  The composite `t << 16 | c` is bumped to
`last + 1` whenever it does not exceed `last`; the resulting composite is
stored back and split into the returned (timestamp, counter) pair. -/
def readTimeAndCounter (last t c : Nat) : (Nat × Nat) × Nat :=
  let tac := t <<< 16 ||| c
  let tac2 := if tac ≤ last then last + 1 else tac
  ((tac2 >>> 16, tac2 % 2 ^ 16), tac2)

/-- `newID` of `xxid.go`: fields from the generator, the minted timestamp
and counter, and (when the generator's flag is zero, meaning unset) the
process-random flag `randFlag()`, passed here as the oracle `rf`. -/
def newID (gen : Generator) (timeMsec : Int) (counter : Nat) (rf : Nat) : ID :=
  let id : ID := ⟨timeMsec, gen.pidOrPort, counter, gen.flag, gen.mIDType, gen.machineID⟩
  if id.flag = 0 then { id with flag := rf } else id

/-- A run of `New` calls: each input element carries one call's wall-clock
reading, wrapped counter increment, and random-flag oracle value; the
last-issued composite is threaded through as `New` does via the shared
sequencer state. -/
def mintTrace (gen : Generator) : Nat → List (Nat × Nat × Nat) → List ID
  | _, [] => []
  | last, (t, c, rf) :: rest =>
    let r := readTimeAndCounter last t c
    newID gen (Int.ofNat r.1.1) r.1.2 rf :: mintTrace gen r.2 rest

theorem int_ofNat_eq (n : Nat) : Int.ofNat n = (n : Int) := rfl

theorem short_eq (id : ID) (h0 : 0 ≤ id.timeMsec) (h1 : id.timeMsec < 2 ^ 46)
    (hc : id.counter < 2 ^ 16) :
    id.Short = id.timeMsec * 2 ^ 16 + id.counter := by
  unfold ID.Short
  have hb : Int.bmod (id.timeMsec * 2 ^ 16) (2 ^ 64) = id.timeMsec * 2 ^ 16 := by
    rw [Int.bmod_def]
    have hx : id.timeMsec * 2 ^ 16 % ((2 ^ 64 : Nat) : Int) = id.timeMsec * 2 ^ 16 := by
      rw [Int.emod_eq_of_lt (by positivity) (by push_cast; nlinarith)]
    rw [hx, if_pos (by push_cast; nlinarith)]
  rw [hb]
  have hofNat : id.timeMsec * 2 ^ 16 = Int.ofNat (id.timeMsec.toNat * 2 ^ 16) := by
    simp only [int_ofNat_eq]
    push_cast
    rw [Int.toNat_of_nonneg h0]
  rw [hofNat]
  have hlor : Int.lor (Int.ofNat (id.timeMsec.toNat * 2 ^ 16)) (Int.ofNat id.counter)
      = Int.ofNat (id.timeMsec.toNat * 2 ^ 16 ||| id.counter) := rfl
  rw [hlor, mul_two_pow_lor_eq_add _ _ 16 hc]
  simp only [int_ofNat_eq]
  push_cast
  rw [Int.toNat_of_nonneg h0]

theorem readTimeAndCounter_gt (last t c : Nat) :
    last < (readTimeAndCounter last t c).2 := by
  simp only [readTimeAndCounter]
  split <;> omega

theorem readTimeAndCounter_le (last t c : Nat) (ht : t < 2 ^ 45) (hc : c < 2 ^ 16) :
    (readTimeAndCounter last t c).2 ≤ max (last + 1) (2 ^ 61) := by
  simp only [readTimeAndCounter]
  have htac : t <<< 16 ||| c ≤ 2 ^ 61 := by
    rw [Nat.shiftLeft_eq, mul_two_pow_lor_eq_add t c 16 hc]
    omega
  split <;> omega

theorem newID_short (gen : Generator) (t : Int) (c rf : Nat) :
    (newID gen t c rf).Short
      = ID.Short ⟨t, gen.pidOrPort, c, gen.flag, gen.mIDType, gen.machineID⟩ := by
  simp only [newID]
  split <;> rfl

theorem newID_short_val (gen : Generator) (rf tac : Nat) (h : tac < 2 ^ 62) :
    (newID gen (Int.ofNat (tac >>> 16)) (tac % 2 ^ 16) rf).Short = Int.ofNat tac := by
  rw [newID_short, short_eq]
  · simp only [Nat.shiftRight_eq_div_pow, int_ofNat_eq]
    push_cast
    omega
  · simp only [int_ofNat_eq]
    omega
  · simp only [Nat.shiftRight_eq_div_pow, int_ofNat_eq]
    push_cast
    omega
  · simp only
    omega

theorem mintTrace_pairwise (gen : Generator) (inputs : List (Nat × Nat × Nat)) :
    ∀ last : Nat, (∀ p ∈ inputs, p.1 < 2 ^ 45) → (∀ p ∈ inputs, p.2.1 < 2 ^ 16) →
      max last (2 ^ 61) + inputs.length < 2 ^ 62 →
      List.Pairwise (fun a b => a.Short < b.Short) (mintTrace gen last inputs)
        ∧ ∀ id ∈ mintTrace gen last inputs, Int.ofNat last < id.Short := by
  induction inputs with
  | nil => intro last _ _ _; exact ⟨List.Pairwise.nil, by simp [mintTrace]⟩
  | cons p rest ih =>
    intro last ht hc hbound
    obtain ⟨t, c, rf⟩ := p
    have ht1 : t < 2 ^ 45 := ht (t, c, rf) (by simp)
    have hc1 : c < 2 ^ 16 := hc (t, c, rf) (by simp)
    set tac := (readTimeAndCounter last t c).2 with htac
    have hgt : last < tac := readTimeAndCounter_gt last t c
    have hle : tac ≤ max (last + 1) (2 ^ 61) := readTimeAndCounter_le last t c ht1 hc1
    have htac62 : tac < 2 ^ 62 := by
      simp only [List.length_cons] at hbound
      omega
    have hbound2 : max tac (2 ^ 61) + rest.length < 2 ^ 62 := by
      simp only [List.length_cons] at hbound
      omega
    obtain ⟨hpw, hall⟩ := ih tac (fun q hq => ht q (by simp [hq]))
      (fun q hq => hc q (by simp [hq])) hbound2
    have hr : readTimeAndCounter last t c
        = ((tac >>> 16, tac % 2 ^ 16), tac) := by
      simp only [readTimeAndCounter, htac]
    have hhead : (newID gen (Int.ofNat ((readTimeAndCounter last t c).1.1))
        ((readTimeAndCounter last t c).1.2) rf).Short = Int.ofNat tac := by
      rw [hr]
      exact newID_short_val gen rf tac htac62
    constructor
    · simp only [mintTrace]
      rw [List.pairwise_cons]
      refine ⟨?_, hpw⟩
      intro b hb
      rw [hhead]
      exact hall b (by simpa [htac] using hb)
    · intro id hid
      simp only [mintTrace, List.mem_cons] at hid
      rcases hid with h | h
      · rw [h, hhead]
        simp only [int_ofNat_eq]
        exact_mod_cast hgt
      · have h1 : (Int.ofNat last) < Int.ofNat tac := by
          simp only [int_ofNat_eq]
          exact_mod_cast hgt
        exact h1.trans (hall id (by simpa [htac] using h))

/-- C5: within one process, the composite values `timeMillis << 16 |
counter` (`Short`) of the IDs minted by successive `New` calls are
strictly increasing with no duplicates, for every wall-clock trace — even
one that moves backward or repeats a millisecond — and every counter and
random-flag trace (timestamps below 2^45 milliseconds and a bounded run
length keep the composite inside the int64 range). -/
theorem c5_short_monotonic (gen : Generator) (last : Nat)
    (inputs : List (Nat × Nat × Nat)) (hlast : last ≤ 2 ^ 61)
    (hlen : inputs.length ≤ 2 ^ 60) (ht : ∀ p ∈ inputs, p.1 < 2 ^ 45)
    (hc : ∀ p ∈ inputs, p.2.1 < 2 ^ 16) :
    List.Pairwise (fun a b => a.Short < b.Short) (mintTrace gen last inputs) :=
  (mintTrace_pairwise gen inputs last ht hc (by omega)).1

/-- C5, witness: a run whose clock repeats a millisecond and then moves
backward still yields strictly increasing `Short` composites. -/
theorem c5_short_monotonic_witness :
    List.Pairwise (fun a b => a.Short < b.Short)
      (mintTrace ⟨1, 0, 0, List.replicate 16 0⟩ 0
        [(5, 9, 3), (5, 9, 3), (4, 2, 7)]) :=
  c5_short_monotonic ⟨1, 0, 0, List.replicate 16 0⟩ 0
    [(5, 9, 3), (5, 9, 3), (4, 2, 7)] (by norm_num) (by norm_num)
    (by decide) (by decide)

/-! ## Sort-order equivalence -/

theorem wfBytes_encodeBinary (id : ID) (hwf : WfBytes id.machineID) :
    WfBytes (encodeBinary id) := by
  intro x hx
  simp only [encodeBinary, List.mem_append] at hx
  rcases hx with ((((h | h) | h) | h) | h)
  · exact mem_toDigits_lt _ _ _ (by norm_num) x h
  · exact mem_toDigits_lt _ _ _ (by norm_num) x h
  · exact hwf x (List.mem_of_mem_take h)
  · exact mem_toDigits_lt _ _ _ (by norm_num) x h
  · exact mem_toDigits_lt _ _ _ (by norm_num) x h

theorem fromDigits_append3 (b : Nat) (l₁ l₂ l₃ : List Nat) :
    fromDigits b (l₁ ++ (l₂ ++ l₃))
      = (fromDigits b l₁ * b ^ l₂.length + fromDigits b l₂) * b ^ l₃.length
        + fromDigits b l₃ := by
  rw [fromDigits_append, fromDigits_append, List.length_append]
  ring

/-- The numeric value of the binary encoding, split as the
timestamp-and-type-and-counter head times the width of the tail plus the
tail (machine-ID, pid, flag) value. -/
theorem encode_value (id : ID) (hwf : id.WF) (ht0 : 0 ≤ id.timeMsec)
    (ht : id.timeMsec < 2 ^ 45) (hd : id.mIDType ≤ 6) :
    fromDigits 256 (encodeBinary id)
      = ((id.timeMsec.toNat * 8 + id.mIDType) * 2 ^ 16 + id.counter)
          * 256 ^ (machineIdLength id.mIDType + 4)
        + fromDigits 256 (id.machineID.take (machineIdLength id.mIDType)
            ++ (toDigits 256 2 id.pidOrPort ++ toDigits 256 2 id.flag)) := by
  obtain ⟨hpid, hcnt, hflg, -, hmlen, hmwf⟩ := hwf
  have hm16 : machineIdLength id.mIDType ≤ 16 := by
    rcases machineIdLength_cases id.mIDType hd with h | h | h <;> omega
  have hx : ((id.timeMsec % 2 ^ 64).toNat <<< 3 % 2 ^ 64 ||| id.mIDType) % 2 ^ 48
      = id.timeMsec.toNat * 8 + id.mIDType :=
    encode_group_eq id.timeMsec id.mIDType ht0 ht (by omega)
  have hxlt : id.timeMsec.toNat * 8 + id.mIDType < 2 ^ 48 := by omega
  unfold encodeBinary
  rw [hx]
  have hlM : (id.machineID.take (machineIdLength id.mIDType)).length
      = machineIdLength id.mIDType := by
    rw [List.length_take, hmlen]
    omega
  simp only [fromDigits_append, length_toDigits, List.length_append, hlM]
  rw [fromDigits_toDigits_of_lt 256 6 _ (by norm_num; omega),
    fromDigits_toDigits_of_lt 256 2 id.counter (by norm_num; omega),
    fromDigits_toDigits_of_lt 256 2 id.pidOrPort (by norm_num; omega),
    fromDigits_toDigits_of_lt 256 2 id.flag (by norm_num; omega)]
  have h216 : (2 : Nat) ^ 16 = 256 ^ 2 := by norm_num
  rw [h216]
  ring

theorem b62_digit_mono :
    ∀ a < 62, ∀ b < 62,
      ((base62Characters.getD a 0 < base62Characters.getD b 0) ↔ a < b)
        ∧ ((base62Characters.getD a 0 = base62Characters.getD b 0) ↔ a = b) := by
  decide

theorem lexLt_cons (a c : Nat) (l m : List Nat) :
    lexLt (a :: l) (c :: m)
      = if a < c then true else if a = c then lexLt l m else false := rfl

theorem lexLt_map_b62 (l₁ l₂ : List Nat) (h₁ : ∀ d ∈ l₁, d < 62)
    (h₂ : ∀ d ∈ l₂, d < 62) :
    lexLt (l₁.map (fun d => base62Characters.getD d 0))
        (l₂.map (fun d => base62Characters.getD d 0))
      = lexLt l₁ l₂ := by
  induction l₁ generalizing l₂ with
  | nil => cases l₂ <;> rfl
  | cons a l ih =>
    cases l₂ with
    | nil => rfl
    | cons b m =>
      have ha : a < 62 := h₁ a (by simp)
      have hb : b < 62 := h₂ b (by simp)
      obtain ⟨hmono, hinj⟩ := b62_digit_mono a ha b hb
      simp only [List.map_cons]
      rw [lexLt_cons, lexLt_cons]
      rcases Nat.lt_trichotomy a b with hab | hab | hab
      · rw [if_pos (hmono.mpr hab), if_pos hab]
      · subst hab
        have ihm := ih m (fun d hd => h₁ d (by simp [hd]))
          (fun d hd => h₂ d (by simp [hd]))
        rw [if_neg (by omega), if_pos rfl, if_neg (by omega), if_pos rfl, ihm]
      · rw [if_neg (by rw [hmono]; omega), if_neg (by rw [hinj]; omega),
          if_neg (by omega), if_neg (by omega)]

theorem pow_bin_le_b62 (d : Nat) (hd : d ≤ 6) :
    (256 : Nat) ^ binEncodedLength d ≤ 62 ^ b62EncodedLength d := by
  interval_cases d <;> decide

/-- C4, counterexample: the claim as stated fails.  Two well-formed IDs
with equal timestamp and counter but different machine-ID bytes have
equal `Short` values while their binary encodings are strictly
lexicographically ordered, so the stated equivalence does not hold for
all IDs. -/
theorem c4_counterexample :
    ID.WF ⟨0, 0, 0, 0, 0, List.replicate 16 0⟩
      ∧ ID.WF ⟨0, 0, 0, 0, 0, 1 :: List.replicate 15 0⟩
      ∧ (⟨0, 0, 0, 0, 0, List.replicate 16 0⟩ : ID).mIDType ≤ 6
      ∧ lexLt (ID.Binary ⟨0, 0, 0, 0, 0, List.replicate 16 0⟩)
          (ID.Binary ⟨0, 0, 0, 0, 0, 1 :: List.replicate 15 0⟩) = true
      ∧ ¬ ID.Short ⟨0, 0, 0, 0, 0, List.replicate 16 0⟩
          < ID.Short ⟨0, 0, 0, 0, 0, 1 :: List.replicate 15 0⟩ := by
  decide

/-- C4, amended: for well-formed IDs that agree on machine-ID type,
machine-ID bytes, pid-or-port and flag (as successive IDs of one
generator with a fixed flag do) and whose timestamps are non-negative
45-bit values, `a.Short() < b.Short()` iff `a.Binary()` is
lexicographically below `b.Binary()` iff `a.Base62()` is
lexicographically below `b.Base62()`. -/
theorem c4_sort_order_agreement (a b : ID) (hwfa : a.WF) (hwfb : b.WF)
    (hta0 : 0 ≤ a.timeMsec) (hta : a.timeMsec < 2 ^ 45)
    (htb0 : 0 ≤ b.timeMsec) (htb : b.timeMsec < 2 ^ 45)
    (hdeq : a.mIDType = b.mIDType) (hd : a.mIDType ≤ 6)
    (hmid : a.machineID = b.machineID) (hpid : a.pidOrPort = b.pidOrPort)
    (hflg : a.flag = b.flag) :
    ((a.Short < b.Short) ↔ lexLt a.Binary b.Binary = true)
      ∧ ((a.Short < b.Short) ↔ lexLt a.Base62 b.Base62 = true) := by
  have hd6b : b.mIDType ≤ 6 := hdeq ▸ hd
  have hNa := encode_value a hwfa hta0 hta hd
  have hNb := encode_value b hwfb htb0 htb hd6b
  rw [← hdeq, ← hmid, ← hpid, ← hflg] at hNb
  have hwfa2 := hwfa
  have hwfb2 := hwfb
  simp only [ID.WF] at hwfa2 hwfb2
  obtain ⟨hapid, hacnt, haflg, -, hamlen, hamwf⟩ := hwfa2
  obtain ⟨hbpid, hbcnt, hbflg, -, hbmlen, hbmwf⟩ := hwfb2
  have hQ : (0 : Nat) < 256 ^ (machineIdLength a.mIDType + 4) :=
    pow_pos (by norm_num) _
  have hvals : fromDigits 256 (encodeBinary a) < fromDigits 256 (encodeBinary b)
      ↔ a.Short < b.Short := by
    rw [hNa, hNb, Nat.add_lt_add_iff_right, Nat.mul_lt_mul_right hQ,
      short_eq a hta0 (by omega) hacnt, short_eq b htb0 (by omega) hbcnt]
    omega
  have hlena := encodeBinary_length a hamlen hd
  have hlenb := encodeBinary_length b hbmlen hd6b
  have hwa := wfBytes_encodeBinary a hamwf
  have hwb := wfBytes_encodeBinary b hbmwf
  have hleneq : (encodeBinary a).length = (encodeBinary b).length := by
    rw [hlena, hlenb, hdeq]
  constructor
  · rw [show a.Binary = encodeBinary a from rfl,
      show b.Binary = encodeBinary b from rfl,
      lexLt_iff 256 _ _ hleneq hwa hwb]
    exact hvals.symm
  · have hNa_lt : fromDigits 256 (encodeBinary a) < 62 ^ b62EncodedLength a.mIDType := by
      have h1 := fromDigits_lt 256 (encodeBinary a) hwa
      rw [hlena] at h1
      exact h1.trans_le (pow_bin_le_b62 a.mIDType hd)
    have hNb_lt : fromDigits 256 (encodeBinary b) < 62 ^ b62EncodedLength a.mIDType := by
      have h1 := fromDigits_lt 256 (encodeBinary b) hwb
      rw [hlenb, ← hdeq] at h1
      exact h1.trans_le (pow_bin_le_b62 a.mIDType hd)
    simp only [ID.Base62, ← hdeq, encodeBase62]
    rw [lexLt_map_b62 _ _ (mem_toDigits_lt _ _ _ (by norm_num))
        (mem_toDigits_lt _ _ _ (by norm_num)),
      lexLt_iff 62 _ _ (by rw [length_toDigits, length_toDigits])
        (mem_toDigits_lt _ _ _ (by norm_num)) (mem_toDigits_lt _ _ _ (by norm_num)),
      fromDigits_toDigits_of_lt _ _ _ hNa_lt, fromDigits_toDigits_of_lt _ _ _ hNb_lt]
    exact hvals.symm

/-- C4, witness: the amended equivalence at two concrete IDs differing
only in their counters. -/
theorem c4_sort_order_agreement_witness :
    (((⟨9, 4, 1, 3, 0, List.replicate 16 2⟩ : ID).Short
          < (⟨9, 4, 2, 3, 0, List.replicate 16 2⟩ : ID).Short)
        ↔ lexLt (ID.Binary ⟨9, 4, 1, 3, 0, List.replicate 16 2⟩)
            (ID.Binary ⟨9, 4, 2, 3, 0, List.replicate 16 2⟩) = true)
      ∧ (((⟨9, 4, 1, 3, 0, List.replicate 16 2⟩ : ID).Short
          < (⟨9, 4, 2, 3, 0, List.replicate 16 2⟩ : ID).Short)
        ↔ lexLt (ID.Base62 ⟨9, 4, 1, 3, 0, List.replicate 16 2⟩)
            (ID.Base62 ⟨9, 4, 2, 3, 0, List.replicate 16 2⟩) = true) :=
  c4_sort_order_agreement ⟨9, 4, 1, 3, 0, List.replicate 16 2⟩
    ⟨9, 4, 2, 3, 0, List.replicate 16 2⟩ (by decide) (by decide) (by decide)
    (by decide) (by decide) (by decide) (by decide) (by decide) (by decide)
    (by decide) (by decide)

end Xxid
